import Mathlib

/-!
Verification of the six baseband line-coding schemes in
`digital_to_digital.py` (NRZ-L, NRZ-I, Bipolar-AMI, Pseudoternary,
Manchester, Differential Manchester).

Bits are modelled as `Int` (the Python code receives `list[int]` and
branches on `bit == 1` or `bit == 0`, with a permissive default branch
for out-of-alphabet values).  Signal levels are modelled as the
three-element alphabet `Level`; the Python module represents them as the
integers `LOW = -1`, `HIGH = 1`, `NO_LINE = 0`, and every comparison in
the source is an equality test against one of these three constants, so
the inductive alphabet is a faithful rendering.

`DifferentialManchester.decode` contains the fallible indexing
`signal[i + 1]` (which raises `IndexError` in Python when the signal has
odd length), so its embedding returns `Option (List Int)`: `none` models
the raised exception.
-/

/-- The three physical line levels of the module (`LOW = -1`, `HIGH = 1`,
`NO_LINE = 0` in the source). -/
inductive Level where
  | low
  | high
  | noLine
deriving DecidableEq

def LOW : Level := Level.low

def HIGH : Level := Level.high

def NO_LINE : Level := Level.noLine

/-- The toggle expression `HIGH if last_level == LOW else LOW` that appears
in the NRZ-I, Bipolar-AMI, Pseudoternary and Differential Manchester
encoders. -/
def toggle (last_level : Level) : Level :=
  if last_level = LOW then HIGH else LOW

namespace NonReturnToZeroLevel

/-- NRZ-L encode: bit 1 → LOW, anything else → HIGH. -/
def encode : List Int → List Level
  | [] => []
  | bit :: rest => (if bit = 1 then LOW else HIGH) :: encode rest

/-- NRZ-L decode: LOW → 1, anything else → 0. -/
def decode : List Level → List Int
  | [] => []
  | level :: rest => (if level = LOW then 1 else 0) :: decode rest

end NonReturnToZeroLevel

namespace NonReturnToZeroInverted

/-- NRZ-I encode loop with the running `last_level` state made explicit. -/
def encodeAux (last_level : Level) : List Int → List Level
  | [] => []
  | bit :: rest =>
    if bit = 1 then toggle last_level :: encodeAux (toggle last_level) rest
    else last_level :: encodeAux last_level rest

/-- NRZ-I encode: `last_level` starts at LOW; bit 1 toggles it, and the
current level is emitted for every bit. -/
def encode (data : List Int) : List Level :=
  encodeAux LOW data

/-- NRZ-I decode loop with the running `previous_level` state explicit. -/
def decodeAux (previous_level : Level) : List Level → List Int
  | [] => []
  | level :: rest =>
    (if level ≠ previous_level then 1 else 0) :: decodeAux level rest

/-- NRZ-I decode: emit 1 on a transition relative to `previous_level`
(initially LOW), else 0. -/
def decode (signal : List Level) : List Int :=
  decodeAux LOW signal

end NonReturnToZeroInverted

namespace BipolarAMI

/-- Bipolar-AMI encode loop with the running `last_level` state explicit. -/
def encodeAux (last_level : Level) : List Int → List Level
  | [] => []
  | bit :: rest =>
    if bit = 1 then toggle last_level :: encodeAux (toggle last_level) rest
    else NO_LINE :: encodeAux last_level rest

/-- Bipolar-AMI encode: bit 1 toggles `last_level` (initially LOW) and
emits the pulse; anything else emits NO_LINE. -/
def encode (data : List Int) : List Level :=
  encodeAux LOW data

/-- Bipolar-AMI decode: NO_LINE → 0, any pulse → 1. -/
def decode : List Level → List Int
  | [] => []
  | level :: rest => (if level = NO_LINE then 0 else 1) :: decode rest

/-- Violation scan with the `last_nonzero` state explicit (`none` = the
Python `None`). -/
def hasViolationsAux (last_nonzero : Option Level) : List Level → Bool
  | [] => false
  | level :: rest =>
    if level = NO_LINE then hasViolationsAux last_nonzero rest
    else if last_nonzero = some level then true
    else hasViolationsAux (some level) rest

/-- `has_violations`: true iff two consecutive non-zero pulses (ignoring
NO_LINE) share a polarity. -/
def has_violations (signal : List Level) : Bool :=
  hasViolationsAux none signal

end BipolarAMI

namespace Pseudoternary

/-- Pseudoternary encode loop with the running `last_level` state explicit. -/
def encodeAux (last_level : Level) : List Int → List Level
  | [] => []
  | bit :: rest =>
    if bit = 0 then toggle last_level :: encodeAux (toggle last_level) rest
    else NO_LINE :: encodeAux last_level rest

/-- Pseudoternary encode: bit 0 toggles `last_level` (initially LOW) and
emits the pulse; anything else emits NO_LINE. -/
def encode (data : List Int) : List Level :=
  encodeAux LOW data

/-- Pseudoternary decode: NO_LINE → 1, any pulse → 0. -/
def decode : List Level → List Int
  | [] => []
  | level :: rest => (if level = NO_LINE then 1 else 0) :: decode rest

/-- Violation scan, byte-for-byte the same algorithm as the Bipolar-AMI
one (the source duplicates it in the `Pseudoternary` class). -/
def hasViolationsAux (last_nonzero : Option Level) : List Level → Bool
  | [] => false
  | level :: rest =>
    if level = NO_LINE then hasViolationsAux last_nonzero rest
    else if last_nonzero = some level then true
    else hasViolationsAux (some level) rest

/-- `has_violations` of the `Pseudoternary` class. -/
def has_violations (signal : List Level) : Bool :=
  hasViolationsAux none signal

end Pseudoternary

namespace Manchester

/-- Manchester encode: bit 1 → [LOW, HIGH], anything else → [HIGH, LOW]. -/
def encode : List Int → List Level
  | [] => []
  | bit :: rest =>
    (if bit = 1 then [LOW, HIGH] else [HIGH, LOW]) ++ encode rest

/-- Manchester decode: consume pairs; `[LOW, HIGH]` → 1, any other pair → 0.
A trailing single element forms the slice `[x]`, which is not `[LOW, HIGH]`
and therefore decodes to 0 (Python slicing does not run out of bounds). -/
def decode : List Level → List Int
  | [] => []
  | [_] => [0]
  | l1 :: l2 :: rest =>
    (if l1 = LOW ∧ l2 = HIGH then 1 else 0) :: decode rest

end Manchester

namespace DifferentialManchester

/-- Differential Manchester encode loop with the `last_level` state
explicit: bit 0 toggles before the first half; the second half always
toggles again. -/
def encodeAux (last_level : Level) : List Int → List Level
  | [] => []
  | bit :: rest =>
    let first := if bit = 0 then toggle last_level else last_level
    first :: toggle first :: encodeAux (toggle first) rest

/-- Differential Manchester encode, `last_level` initially LOW. -/
def encode (data : List Int) : List Level :=
  encodeAux LOW data

/-- Differential Manchester decode loop.  Each step reads `signal[i]` and
`signal[i + 1]`; on a trailing single element the read of `signal[i + 1]`
raises `IndexError` in the source, modelled here as `none`. -/
def decodeAux (previous_level : Level) : List Level → Option (List Int)
  | [] => some []
  | [_] => none
  | l1 :: l2 :: rest =>
    (decodeAux l2 rest).map
      (fun result => (if l1 ≠ previous_level then 0 else 1) :: result)

/-- Differential Manchester decode, `previous_level` initially LOW. -/
def decode (signal : List Level) : Option (List Int) :=
  decodeAux LOW signal

end DifferentialManchester

/-- The precondition that a message is a genuine bit sequence over {0, 1}. -/
def bits01 (data : List Int) : Prop :=
  ∀ bit ∈ data, bit = 0 ∨ bit = 1

instance (data : List Int) : Decidable (bits01 data) :=
  inferInstanceAs (Decidable (∀ bit ∈ data, bit = 0 ∨ bit = 1))

/-- Spec-side predicate, from the spec's words: after ignoring NO_LINE
elements, the sequence contains two consecutive (adjacent) equal levels. -/
def adjacentEqual : List Level → Bool
  | a :: b :: rest => decide (a = b) || adjacentEqual (b :: rest)
  | _ => false

/-- Spec-side violation characterisation: two consecutive non-zero pulses
of equal polarity, NO_LINE elements ignored. -/
def specViolation (signal : List Level) : Bool :=
  adjacentEqual (signal.filter (fun level => decide (level ≠ NO_LINE)))

example : NonReturnToZeroLevel.encode [1, 0, 1, 1, 0] =
    [LOW, HIGH, LOW, LOW, HIGH] := by decide

example : NonReturnToZeroInverted.encode [0, 1, 1, 0, 1] =
    [LOW, HIGH, LOW, LOW, HIGH] := by decide

example : BipolarAMI.encode [1, 0, 0, 1, 1] =
    [HIGH, NO_LINE, NO_LINE, LOW, HIGH] := by decide

example : Manchester.encode [1, 0] = [LOW, HIGH, HIGH, LOW] := by decide

example : Manchester.decode [LOW, HIGH, HIGH, LOW] = [1, 0] := by decide

example : DifferentialManchester.encode [0, 1] =
    [HIGH, LOW, LOW, HIGH] := by decide

example : DifferentialManchester.decode [HIGH] = none := by decide

example : BipolarAMI.has_violations [HIGH, NO_LINE, HIGH] = true := by decide

example : BipolarAMI.has_violations [HIGH, LOW, HIGH] = false := by decide

lemma toggle_ne (l : Level) : toggle l ≠ l := by
  cases l <;> decide

lemma toggle_ne_noLine (l : Level) : toggle l ≠ NO_LINE := by
  cases l <;> decide

lemma nrzl_roundtrip (b : List Int) (hb : bits01 b) :
    NonReturnToZeroLevel.decode (NonReturnToZeroLevel.encode b) = b := by
  induction b with
  | nil => rfl
  | cons bit rest ih =>
    have hbit := hb bit (List.mem_cons_self bit rest)
    have hrest : bits01 rest := fun x hx => hb x (List.mem_cons_of_mem bit hx)
    rcases hbit with h0 | h1
    · subst h0
      simp [NonReturnToZeroLevel.encode, NonReturnToZeroLevel.decode,
        ih hrest, LOW, HIGH]
    · subst h1
      simp [NonReturnToZeroLevel.encode, NonReturnToZeroLevel.decode,
        ih hrest, LOW, HIGH]

lemma nrzi_roundtrip_aux (b : List Int) (hb : bits01 b) (L : Level) :
    NonReturnToZeroInverted.decodeAux L (NonReturnToZeroInverted.encodeAux L b) = b := by
  induction b generalizing L with
  | nil => rfl
  | cons bit rest ih =>
    have hbit := hb bit (List.mem_cons_self bit rest)
    have hrest : bits01 rest := fun x hx => hb x (List.mem_cons_of_mem bit hx)
    rcases hbit with h0 | h1
    · subst h0
      simp [NonReturnToZeroInverted.encodeAux, NonReturnToZeroInverted.decodeAux,
        ih hrest]
    · subst h1
      simp [NonReturnToZeroInverted.encodeAux, NonReturnToZeroInverted.decodeAux,
        toggle_ne L, ih hrest]

lemma ami_roundtrip_aux (b : List Int) (hb : bits01 b) (L : Level) :
    BipolarAMI.decode (BipolarAMI.encodeAux L b) = b := by
  induction b generalizing L with
  | nil => rfl
  | cons bit rest ih =>
    have hbit := hb bit (List.mem_cons_self bit rest)
    have hrest : bits01 rest := fun x hx => hb x (List.mem_cons_of_mem bit hx)
    rcases hbit with h0 | h1
    · subst h0
      simp [BipolarAMI.encodeAux, BipolarAMI.decode, ih hrest]
    · subst h1
      simp [BipolarAMI.encodeAux, BipolarAMI.decode,
        toggle_ne_noLine L, ih hrest]

lemma pt_roundtrip_aux (b : List Int) (hb : bits01 b) (L : Level) :
    Pseudoternary.decode (Pseudoternary.encodeAux L b) = b := by
  induction b generalizing L with
  | nil => rfl
  | cons bit rest ih =>
    have hbit := hb bit (List.mem_cons_self bit rest)
    have hrest : bits01 rest := fun x hx => hb x (List.mem_cons_of_mem bit hx)
    rcases hbit with h0 | h1
    · subst h0
      simp [Pseudoternary.encodeAux, Pseudoternary.decode,
        toggle_ne_noLine L, ih hrest]
    · subst h1
      simp [Pseudoternary.encodeAux, Pseudoternary.decode, ih hrest]

lemma manchester_roundtrip (b : List Int) (hb : bits01 b) :
    Manchester.decode (Manchester.encode b) = b := by
  induction b with
  | nil => rfl
  | cons bit rest ih =>
    have hbit := hb bit (List.mem_cons_self bit rest)
    have hrest : bits01 rest := fun x hx => hb x (List.mem_cons_of_mem bit hx)
    rcases hbit with h0 | h1
    · subst h0
      simp [Manchester.encode, Manchester.decode, ih hrest, LOW, HIGH]
    · subst h1
      simp [Manchester.encode, Manchester.decode, ih hrest, LOW, HIGH]

lemma dm_roundtrip_aux (b : List Int) (hb : bits01 b) (L : Level) :
    DifferentialManchester.decodeAux L (DifferentialManchester.encodeAux L b) =
      some b := by
  induction b generalizing L with
  | nil => rfl
  | cons bit rest ih =>
    have hbit := hb bit (List.mem_cons_self bit rest)
    have hrest : bits01 rest := fun x hx => hb x (List.mem_cons_of_mem bit hx)
    rcases hbit with h0 | h1
    · subst h0
      simp [DifferentialManchester.encodeAux, DifferentialManchester.decodeAux,
        toggle_ne L, ih hrest]
    · subst h1
      simp [DifferentialManchester.encodeAux, DifferentialManchester.decodeAux,
        ih hrest]

/-- Claim C1: for every finite bit sequence over {0, 1}, decoding the
encoding gives back the sequence, for each of the six schemes, with
encoder and decoder state initialised to LOW (the Differential Manchester
decoder is fallible, so its successful round trip is `some b`). -/
theorem encode_decode_roundtrip (b : List Int) (hb : bits01 b) :
    NonReturnToZeroLevel.decode (NonReturnToZeroLevel.encode b) = b ∧
    NonReturnToZeroInverted.decode (NonReturnToZeroInverted.encode b) = b ∧
    BipolarAMI.decode (BipolarAMI.encode b) = b ∧
    Pseudoternary.decode (Pseudoternary.encode b) = b ∧
    Manchester.decode (Manchester.encode b) = b ∧
    DifferentialManchester.decode (DifferentialManchester.encode b) = some b :=
  ⟨nrzl_roundtrip b hb, nrzi_roundtrip_aux b hb LOW,
    ami_roundtrip_aux b hb LOW, pt_roundtrip_aux b hb LOW,
    manchester_roundtrip b hb, dm_roundtrip_aux b hb LOW⟩

/-- Witness for C1 at the concrete bit sequence [1, 0, 1, 1, 0]. -/
theorem encode_decode_roundtrip_witness :
    bits01 [1, 0, 1, 1, 0] ∧
    NonReturnToZeroLevel.decode
      (NonReturnToZeroLevel.encode [1, 0, 1, 1, 0]) = [1, 0, 1, 1, 0] ∧
    NonReturnToZeroInverted.decode
      (NonReturnToZeroInverted.encode [1, 0, 1, 1, 0]) = [1, 0, 1, 1, 0] ∧
    BipolarAMI.decode (BipolarAMI.encode [1, 0, 1, 1, 0]) = [1, 0, 1, 1, 0] ∧
    Pseudoternary.decode
      (Pseudoternary.encode [1, 0, 1, 1, 0]) = [1, 0, 1, 1, 0] ∧
    Manchester.decode (Manchester.encode [1, 0, 1, 1, 0]) = [1, 0, 1, 1, 0] ∧
    DifferentialManchester.decode
      (DifferentialManchester.encode [1, 0, 1, 1, 0]) = some [1, 0, 1, 1, 0] :=
  ⟨by decide, encode_decode_roundtrip [1, 0, 1, 1, 0] (by decide)⟩

/-- Claim C2 is a code bug: on the odd-length, well-typed signal [HIGH],
the Differential Manchester decoder evaluates `signal[i + 1]` past the end
of the list and fails (the Python source raises `IndexError`; the
embedding returns `none`), instead of returning a result with the
trailing element dropped or flagged.  The Manchester decoder does return
a result on the same input, though it decodes the trailing single element
to bit 0 rather than dropping or flagging it. -/
theorem dm_decode_odd_length_fails :
    DifferentialManchester.decode [HIGH] = none ∧
    Manchester.decode [HIGH] = [0] := by
  decide

lemma nrzl_length (b : List Int) :
    (NonReturnToZeroLevel.encode b).length = b.length := by
  induction b with
  | nil => rfl
  | cons bit rest ih => simp [NonReturnToZeroLevel.encode, ih]

lemma nrzi_length_aux (b : List Int) (L : Level) :
    (NonReturnToZeroInverted.encodeAux L b).length = b.length := by
  induction b generalizing L with
  | nil => rfl
  | cons bit rest ih =>
    by_cases h : bit = 1 <;> simp [NonReturnToZeroInverted.encodeAux, h, ih]

lemma ami_length_aux (b : List Int) (L : Level) :
    (BipolarAMI.encodeAux L b).length = b.length := by
  induction b generalizing L with
  | nil => rfl
  | cons bit rest ih =>
    by_cases h : bit = 1 <;> simp [BipolarAMI.encodeAux, h, ih]

lemma pt_length_aux (b : List Int) (L : Level) :
    (Pseudoternary.encodeAux L b).length = b.length := by
  induction b generalizing L with
  | nil => rfl
  | cons bit rest ih =>
    by_cases h : bit = 0 <;> simp [Pseudoternary.encodeAux, h, ih]

lemma manchester_length (b : List Int) :
    (Manchester.encode b).length = 2 * b.length := by
  induction b with
  | nil => rfl
  | cons bit rest ih =>
    by_cases h : bit = 1 <;>
      simp [Manchester.encode, h, ih, Nat.mul_succ]

lemma dm_length_aux (b : List Int) (L : Level) :
    (DifferentialManchester.encodeAux L b).length = 2 * b.length := by
  induction b generalizing L with
  | nil => rfl
  | cons bit rest ih =>
    simp [DifferentialManchester.encodeAux, ih, Nat.mul_succ]

/-- Claim C5: each encoder of NRZ-L, NRZ-I, Bipolar-AMI and Pseudoternary
produces exactly one level per bit, and Manchester and Differential
Manchester produce exactly two levels per bit. -/
theorem encode_length_law (b : List Int) (hb : bits01 b) :
    (NonReturnToZeroLevel.encode b).length = b.length ∧
    (NonReturnToZeroInverted.encode b).length = b.length ∧
    (BipolarAMI.encode b).length = b.length ∧
    (Pseudoternary.encode b).length = b.length ∧
    (Manchester.encode b).length = 2 * b.length ∧
    (DifferentialManchester.encode b).length = 2 * b.length :=
  ⟨nrzl_length b, nrzi_length_aux b LOW, ami_length_aux b LOW,
    pt_length_aux b LOW, manchester_length b, dm_length_aux b LOW⟩

/-- Witness for C5 at the concrete bit sequence [1, 0, 1]. -/
theorem encode_length_law_witness :
    bits01 [1, 0, 1] ∧
    (NonReturnToZeroLevel.encode [1, 0, 1]).length = 3 ∧
    (Manchester.encode [1, 0, 1]).length = 6 :=
  ⟨by decide, (encode_length_law [1, 0, 1] (by decide)).1,
    (encode_length_law [1, 0, 1] (by decide)).2.2.2.2.1⟩

lemma dm_pair_ne_aux (b : List Int) (L : Level) (i : Nat) (hi : i < b.length) :
    (DifferentialManchester.encodeAux L b).getD (2 * i) NO_LINE ≠
      (DifferentialManchester.encodeAux L b).getD (2 * i + 1) NO_LINE := by
  induction b generalizing L i with
  | nil => simp at hi
  | cons bit rest ih =>
    cases i with
    | zero =>
      simp only [DifferentialManchester.encodeAux, Nat.mul_zero, Nat.zero_add,
        List.getD_cons_zero, List.getD_cons_succ]
      exact Ne.symm (toggle_ne _)
    | succ j =>
      have e1 : 2 * (j + 1) = 2 * j + 1 + 1 := by ring
      rw [e1]
      simp only [DifferentialManchester.encodeAux, List.getD_cons_succ]
      exact ih (toggle (if bit = 0 then toggle L else L)) j
        (Nat.lt_of_succ_lt_succ hi)

/-- Claim C6: every Differential Manchester encoded bit has a transition
at its midpoint: the two half-intervals of bit `i` differ, whatever the
bit's value. -/
theorem dm_midpoint_transition (b : List Int) (hb : bits01 b) (i : Nat)
    (hi : i < b.length)
    (h1 : 2 * i < (DifferentialManchester.encode b).length)
    (h2 : 2 * i + 1 < (DifferentialManchester.encode b).length) :
    (DifferentialManchester.encode b).get ⟨2 * i, h1⟩ ≠
      (DifferentialManchester.encode b).get ⟨2 * i + 1, h2⟩ := by
  have g1 := List.getD_eq_get (DifferentialManchester.encode b) NO_LINE h1
  have g2 := List.getD_eq_get (DifferentialManchester.encode b) NO_LINE h2
  rw [← g1, ← g2]
  exact dm_pair_ne_aux b LOW i hi

/-- Witness for C6 at the bit sequence [0, 1] and index 0. -/
theorem dm_midpoint_transition_witness :
    bits01 [0, 1] ∧
    (DifferentialManchester.encode [0, 1]).get ⟨0, by decide⟩ ≠
      (DifferentialManchester.encode [0, 1]).get ⟨1, by decide⟩ :=
  ⟨by decide,
    dm_midpoint_transition [0, 1] (by decide) 0 (by decide) (by decide)
      (by decide)⟩

lemma ami_hv_encode_aux (b : List Int) (L : Level) (hL : L ≠ NO_LINE)
    (last : Option Level) (hlast : last = none ∨ last = some L) :
    BipolarAMI.hasViolationsAux last (BipolarAMI.encodeAux L b) = false := by
  induction b generalizing L last with
  | nil =>
    rcases hlast with h | h <;> subst h <;> rfl
  | cons bit rest ih =>
    by_cases h : bit = 1
    · have hne : toggle L ≠ NO_LINE := toggle_ne_noLine L
      have hLt : L ≠ toggle L := Ne.symm (toggle_ne L)
      rcases hlast with h' | h' <;> subst h' <;>
        simp only [BipolarAMI.encodeAux, h, if_true,
          BipolarAMI.hasViolationsAux, if_neg hne]
      · exact ih (toggle L) hne (some (toggle L)) (Or.inr rfl)
      · rw [if_neg (fun hc => hLt (Option.some_injective Level hc))]
        exact ih (toggle L) hne (some (toggle L)) (Or.inr rfl)
    · simp only [BipolarAMI.encodeAux, h, if_false,
        BipolarAMI.hasViolationsAux, if_pos rfl]
      exact ih L hL last hlast

lemma pt_hv_encode_aux (b : List Int) (L : Level) (hL : L ≠ NO_LINE)
    (last : Option Level) (hlast : last = none ∨ last = some L) :
    Pseudoternary.hasViolationsAux last (Pseudoternary.encodeAux L b) = false := by
  induction b generalizing L last with
  | nil =>
    rcases hlast with h | h <;> subst h <;> rfl
  | cons bit rest ih =>
    by_cases h : bit = 0
    · have hne : toggle L ≠ NO_LINE := toggle_ne_noLine L
      have hLt : L ≠ toggle L := Ne.symm (toggle_ne L)
      rcases hlast with h' | h' <;> subst h' <;>
        simp only [Pseudoternary.encodeAux, h, if_true,
          Pseudoternary.hasViolationsAux, if_neg hne]
      · exact ih (toggle L) hne (some (toggle L)) (Or.inr rfl)
      · rw [if_neg (fun hc => hLt (Option.some_injective Level hc))]
        exact ih (toggle L) hne (some (toggle L)) (Or.inr rfl)
    · simp only [Pseudoternary.encodeAux, h, if_false,
        Pseudoternary.hasViolationsAux, if_pos rfl]
      exact ih L hL last hlast

/-- Claim C3: the alternating-polarity encoders never produce a bipolar
violation: for any bit sequence over {0, 1} with at least two 1-bits
(Bipolar-AMI) resp. at least two 0-bits (Pseudoternary), the violation
scan of the encoded signal reports false. -/
theorem bipolar_encode_no_violations (b : List Int) (hb : bits01 b) :
    (2 ≤ b.count 1 →
      BipolarAMI.has_violations (BipolarAMI.encode b) = false) ∧
    (2 ≤ b.count 0 →
      Pseudoternary.has_violations (Pseudoternary.encode b) = false) :=
  ⟨fun _ => ami_hv_encode_aux b LOW (by decide) none (Or.inl rfl),
    fun _ => pt_hv_encode_aux b LOW (by decide) none (Or.inl rfl)⟩

/-- Witness for C3 at [1, 0, 1] (two ones) and [0, 1, 0] (two zeros). -/
theorem bipolar_encode_no_violations_witness :
    bits01 [1, 0, 1] ∧ 2 ≤ ([1, 0, 1] : List Int).count 1 ∧
    BipolarAMI.has_violations (BipolarAMI.encode [1, 0, 1]) = false ∧
    Pseudoternary.has_violations (Pseudoternary.encode [0, 1, 0]) = false :=
  ⟨by decide, by decide,
    (bipolar_encode_no_violations [1, 0, 1] (by decide)).1 (by decide),
    (bipolar_encode_no_violations [0, 1, 0] (by decide)).2 (by decide)⟩

lemma pt_ami_encode_aux (b : List Int) (hb : bits01 b) (L : Level) :
    Pseudoternary.encodeAux L b =
      BipolarAMI.encodeAux L (b.map (fun x => 1 - x)) := by
  induction b generalizing L with
  | nil => rfl
  | cons bit rest ih =>
    have hbit := hb bit (List.mem_cons_self bit rest)
    have hrest : bits01 rest := fun x hx => hb x (List.mem_cons_of_mem bit hx)
    rcases hbit with h0 | h1
    · subst h0
      simp [Pseudoternary.encodeAux, BipolarAMI.encodeAux, ih hrest]
    · subst h1
      simp [Pseudoternary.encodeAux, BipolarAMI.encodeAux, ih hrest]

lemma pt_ami_decode (s : List Level) :
    Pseudoternary.decode s = (BipolarAMI.decode s).map (fun x => 1 - x) := by
  induction s with
  | nil => rfl
  | cons level rest ih =>
    by_cases h : level = NO_LINE <;>
      simp [Pseudoternary.decode, BipolarAMI.decode, h, ih]

lemma pt_ami_hv_aux (s : List Level) (last : Option Level) :
    Pseudoternary.hasViolationsAux last s =
      BipolarAMI.hasViolationsAux last s := by
  induction s generalizing last with
  | nil => rfl
  | cons level rest ih =>
    simp only [Pseudoternary.hasViolationsAux, BipolarAMI.hasViolationsAux, ih]

/-- Claim C4: Pseudoternary is the mirror image of Bipolar-AMI with the
bit roles swapped: its encoder equals the AMI encoder on the complemented
bit sequence, its decoder is the complement of the AMI decoder, and the
two violation checks agree on every level sequence. -/
theorem pseudoternary_mirrors_ami :
    (∀ b : List Int, bits01 b →
      Pseudoternary.encode b =
        BipolarAMI.encode (b.map (fun x => 1 - x))) ∧
    (∀ s : List Level,
      Pseudoternary.decode s = (BipolarAMI.decode s).map (fun x => 1 - x)) ∧
    (∀ s : List Level,
      Pseudoternary.has_violations s = BipolarAMI.has_violations s) :=
  ⟨fun b hb => pt_ami_encode_aux b hb LOW, pt_ami_decode,
    fun s => pt_ami_hv_aux s none⟩

/-- Witness for C4 at [0, 1, 0] and the signal [HIGH, NO_LINE, HIGH]. -/
theorem pseudoternary_mirrors_ami_witness :
    bits01 [0, 1, 0] ∧
    Pseudoternary.encode [0, 1, 0] =
      BipolarAMI.encode (([0, 1, 0] : List Int).map (fun x => 1 - x)) ∧
    Pseudoternary.decode [HIGH, NO_LINE, HIGH] =
      (BipolarAMI.decode [HIGH, NO_LINE, HIGH]).map (fun x => 1 - x) ∧
    Pseudoternary.has_violations [HIGH, NO_LINE, HIGH] =
      BipolarAMI.has_violations [HIGH, NO_LINE, HIGH] :=
  ⟨by decide, pseudoternary_mirrors_ami.1 [0, 1, 0] (by decide),
    pseudoternary_mirrors_ami.2.1 [HIGH, NO_LINE, HIGH],
    pseudoternary_mirrors_ami.2.2 [HIGH, NO_LINE, HIGH]⟩

lemma hv_aux_eq_adjacent (s : List Level) (last : Level) :
    BipolarAMI.hasViolationsAux (some last) s =
      adjacentEqual (last :: s.filter (fun l => decide (l ≠ NO_LINE))) := by
  induction s generalizing last with
  | nil => rfl
  | cons level rest ih =>
    by_cases h : level = NO_LINE
    · subst h
      simp [BipolarAMI.hasViolationsAux, List.filter_cons, ih]
    · have hfilter :
          List.filter (fun l => decide (l ≠ NO_LINE)) (level :: rest) =
            level :: List.filter (fun l => decide (l ≠ NO_LINE)) rest := by
        simp [List.filter_cons, h]
      by_cases heq : last = level
      · subst heq
        simp [BipolarAMI.hasViolationsAux, h, hfilter, adjacentEqual]
      · have hsome : ¬(some last = some level) :=
          fun hc => heq (Option.some_injective Level hc)
        simp only [BipolarAMI.hasViolationsAux, if_neg h, if_neg hsome,
          hfilter]
        rw [ih level]
        simp [adjacentEqual, heq]

lemma hv_eq_specViolation (s : List Level) :
    BipolarAMI.has_violations s = specViolation s := by
  unfold BipolarAMI.has_violations specViolation
  induction s with
  | nil => rfl
  | cons level rest ih =>
    by_cases h : level = NO_LINE
    · subst h
      simpa [BipolarAMI.hasViolationsAux, List.filter_cons] using ih
    · have hfilter :
          List.filter (fun l => decide (l ≠ NO_LINE)) (level :: rest) =
            level :: List.filter (fun l => decide (l ≠ NO_LINE)) rest := by
        simp [List.filter_cons, h]
      simp only [BipolarAMI.hasViolationsAux, if_neg h, hfilter]
      rw [if_neg (by simp : ¬(none : Option Level) = some level)]
      exact hv_aux_eq_adjacent rest level

/-- Claim C7: the violation scan returns true exactly when, after
ignoring NO_LINE elements, the signal contains two adjacent pulses of
equal polarity; in particular it is true on [HIGH, NO_LINE, HIGH] and
false on [HIGH, LOW, HIGH]. -/
theorem has_violations_iff_adjacent_equal_pulses :
    (∀ s : List Level, BipolarAMI.has_violations s = specViolation s) ∧
    BipolarAMI.has_violations [HIGH, NO_LINE, HIGH] = true ∧
    BipolarAMI.has_violations [HIGH, LOW, HIGH] = false :=
  ⟨hv_eq_specViolation, by decide, by decide⟩

lemma toggle_high_or_low (l : Level) : toggle l = HIGH ∨ toggle l = LOW := by
  cases l <;> simp [toggle, HIGH, LOW, NO_LINE]

lemma nrzl_levels (b : List Int) :
    ∀ l ∈ NonReturnToZeroLevel.encode b, l = HIGH ∨ l = LOW := by
  induction b with
  | nil => simp [NonReturnToZeroLevel.encode]
  | cons bit rest ih =>
    intro l hl
    simp only [NonReturnToZeroLevel.encode, List.mem_cons] at hl
    rcases hl with h | h
    · subst h
      by_cases hb : bit = 1 <;> simp [hb]
    · exact ih l h

lemma nrzi_levels_aux (b : List Int) (L : Level) (hL : L = HIGH ∨ L = LOW) :
    ∀ l ∈ NonReturnToZeroInverted.encodeAux L b, l = HIGH ∨ l = LOW := by
  induction b generalizing L with
  | nil => simp [NonReturnToZeroInverted.encodeAux]
  | cons bit rest ih =>
    intro l hl
    by_cases hb : bit = 1 <;>
      simp only [NonReturnToZeroInverted.encodeAux, hb, if_true, if_false,
        List.mem_cons] at hl
    · rcases hl with h | h
      · subst h
        exact toggle_high_or_low L
      · exact ih (toggle L) (toggle_high_or_low L) l h
    · rcases hl with h | h
      · subst h
        exact hL
      · exact ih L hL l h

lemma manchester_levels (b : List Int) :
    ∀ l ∈ Manchester.encode b, l = HIGH ∨ l = LOW := by
  induction b with
  | nil => simp [Manchester.encode]
  | cons bit rest ih =>
    intro l hl
    by_cases hb : bit = 1 <;>
      simp only [Manchester.encode, hb, if_true, if_false, List.cons_append,
        List.nil_append, List.mem_cons] at hl <;>
      rcases hl with h | h | h
    · exact Or.inr h
    · exact Or.inl h
    · exact ih l h
    · exact Or.inl h
    · exact Or.inr h
    · exact ih l h

lemma dm_levels_aux (b : List Int) (L : Level) (hL : L = HIGH ∨ L = LOW) :
    ∀ l ∈ DifferentialManchester.encodeAux L b, l = HIGH ∨ l = LOW := by
  induction b generalizing L with
  | nil => simp [DifferentialManchester.encodeAux]
  | cons bit rest ih =>
    intro l hl
    simp only [DifferentialManchester.encodeAux, List.mem_cons] at hl
    have hfirst : (if bit = 0 then toggle L else L) = HIGH ∨
        (if bit = 0 then toggle L else L) = LOW := by
      by_cases hb : bit = 0
      · simpa [hb] using toggle_high_or_low L
      · simpa [hb] using hL
    rcases hl with h | h | h
    · subst h
      exact hfirst
    · subst h
      exact toggle_high_or_low _
    · exact ih (toggle (if bit = 0 then toggle L else L))
        (toggle_high_or_low _) l h

/-- Claim C8: the NRZ-L, NRZ-I, Manchester and Differential Manchester
encoders only emit HIGH or LOW, never NO_LINE; the bipolar family (AMI,
Pseudoternary) does emit NO_LINE. -/
theorem non_bipolar_encoders_never_no_line (b : List Int) (hb : bits01 b) :
    (∀ l ∈ NonReturnToZeroLevel.encode b, l = HIGH ∨ l = LOW) ∧
    (∀ l ∈ NonReturnToZeroInverted.encode b, l = HIGH ∨ l = LOW) ∧
    (∀ l ∈ Manchester.encode b, l = HIGH ∨ l = LOW) ∧
    (∀ l ∈ DifferentialManchester.encode b, l = HIGH ∨ l = LOW) ∧
    NO_LINE ∈ BipolarAMI.encode [0, 1] ∧
    NO_LINE ∈ Pseudoternary.encode [1, 0] :=
  ⟨nrzl_levels b, nrzi_levels_aux b LOW (Or.inr rfl), manchester_levels b,
    dm_levels_aux b LOW (Or.inr rfl), by decide, by decide⟩

/-- Witness for C8 at the bit sequence [1, 0]. -/
theorem non_bipolar_encoders_never_no_line_witness :
    bits01 [1, 0] ∧
    (∀ l ∈ NonReturnToZeroInverted.encode [1, 0], l = HIGH ∨ l = LOW) :=
  ⟨by decide, (non_bipolar_encoders_never_no_line [1, 0] (by decide)).2.1⟩

lemma ami_first_pulse_aux (b : List Int) (h1 : (1 : Int) ∈ b) :
    (BipolarAMI.encodeAux LOW b).find? (fun l => decide (l ≠ NO_LINE)) =
      some HIGH := by
  induction b with
  | nil => simp at h1
  | cons bit rest ih =>
    by_cases hb : bit = 1
    · simp [BipolarAMI.encodeAux, hb, List.find?, toggle, LOW, HIGH, NO_LINE]
    · have h1' : (1 : Int) ∈ rest := by
        rcases List.mem_cons.mp h1 with h | h
        · exact absurd h.symm hb
        · exact h
      simpa [BipolarAMI.encodeAux, hb, List.find?, NO_LINE] using ih h1'

lemma pt_first_pulse_aux (b : List Int) (h0 : (0 : Int) ∈ b) :
    (Pseudoternary.encodeAux LOW b).find? (fun l => decide (l ≠ NO_LINE)) =
      some HIGH := by
  induction b with
  | nil => simp at h0
  | cons bit rest ih =>
    by_cases hb : bit = 0
    · simp [Pseudoternary.encodeAux, hb, List.find?, toggle, LOW, HIGH, NO_LINE]
    · have h0' : (0 : Int) ∈ rest := by
        rcases List.mem_cons.mp h0 with h | h
        · exact absurd h.symm hb
        · exact h
      simpa [Pseudoternary.encodeAux, hb, List.find?, NO_LINE] using ih h0'

/-- Claim C9: for a non-empty bit sequence over {0, 1} with at least one
pulse-encoding bit (a 1 for Bipolar-AMI, a 0 for Pseudoternary), the
first non-NO_LINE level of the encoding is HIGH: the state starts at LOW
and is toggled before the first pulse is emitted. -/
theorem first_pulse_is_high (b : List Int) (hb : bits01 b) (hne : b ≠ []) :
    ((1 : Int) ∈ b →
      (BipolarAMI.encode b).find? (fun l => decide (l ≠ NO_LINE)) =
        some HIGH) ∧
    ((0 : Int) ∈ b →
      (Pseudoternary.encode b).find? (fun l => decide (l ≠ NO_LINE)) =
        some HIGH) :=
  ⟨fun h1 => ami_first_pulse_aux b h1, fun h0 => pt_first_pulse_aux b h0⟩

/-- Witness for C9 at the bit sequence [0, 1]. -/
theorem first_pulse_is_high_witness :
    bits01 [0, 1] ∧ ([0, 1] : List Int) ≠ [] ∧
    (BipolarAMI.encode [0, 1]).find? (fun l => decide (l ≠ NO_LINE)) =
      some HIGH ∧
    (Pseudoternary.encode [0, 1]).find? (fun l => decide (l ≠ NO_LINE)) =
      some HIGH :=
  ⟨by decide, by decide,
    (first_pulse_is_high [0, 1] (by decide) (by decide)).1 (by decide),
    (first_pulse_is_high [0, 1] (by decide) (by decide)).2 (by decide)⟩

lemma nrzl_default_branch (d : List Int) :
    NonReturnToZeroLevel.encode d =
      NonReturnToZeroLevel.encode (d.map (fun x => if x = 1 then 1 else 0)) := by
  induction d with
  | nil => rfl
  | cons bit rest ih =>
    by_cases h : bit = 1 <;> simp [NonReturnToZeroLevel.encode, h, ih]

lemma nrzi_default_branch_aux (d : List Int) (L : Level) :
    NonReturnToZeroInverted.encodeAux L d =
      NonReturnToZeroInverted.encodeAux L
        (d.map (fun x => if x = 1 then 1 else 0)) := by
  induction d generalizing L with
  | nil => rfl
  | cons bit rest ih =>
    by_cases h : bit = 1 <;> simp [NonReturnToZeroInverted.encodeAux, h, ih]

lemma ami_default_branch_aux (d : List Int) (L : Level) :
    BipolarAMI.encodeAux L d =
      BipolarAMI.encodeAux L (d.map (fun x => if x = 1 then 1 else 0)) := by
  induction d generalizing L with
  | nil => rfl
  | cons bit rest ih =>
    by_cases h : bit = 1 <;> simp [BipolarAMI.encodeAux, h, ih]

lemma manchester_default_branch (d : List Int) :
    Manchester.encode d =
      Manchester.encode (d.map (fun x => if x = 1 then 1 else 0)) := by
  induction d with
  | nil => rfl
  | cons bit rest ih =>
    by_cases h : bit = 1 <;> simp [Manchester.encode, h, ih]

lemma pt_default_branch_aux (d : List Int) (L : Level) :
    Pseudoternary.encodeAux L d =
      Pseudoternary.encodeAux L (d.map (fun x => if x = 0 then 0 else 1)) := by
  induction d generalizing L with
  | nil => rfl
  | cons bit rest ih =>
    by_cases h : bit = 0 <;> simp [Pseudoternary.encodeAux, h, ih]

lemma dm_default_branch_aux (d : List Int) (L : Level) :
    DifferentialManchester.encodeAux L d =
      DifferentialManchester.encodeAux L
        (d.map (fun x => if x = 0 then 0 else 1)) := by
  induction d generalizing L with
  | nil => rfl
  | cons bit rest ih =>
    by_cases h : bit = 0 <;> simp [DifferentialManchester.encodeAux, h, ih]

/-- Claim C10: the permissive default branch for out-of-alphabet bits is
not uniform: NRZ-L, NRZ-I, Bipolar-AMI and Manchester treat every value
other than 1 as bit 0, while Pseudoternary and Differential Manchester
treat every value other than 0 as bit 1 (so the value 2 is encoded as a 0
by AMI but as a 1 by Pseudoternary). -/
theorem default_branch_asymmetry :
    (∀ d : List Int, NonReturnToZeroLevel.encode d =
      NonReturnToZeroLevel.encode (d.map (fun x => if x = 1 then 1 else 0))) ∧
    (∀ d : List Int, NonReturnToZeroInverted.encode d =
      NonReturnToZeroInverted.encode
        (d.map (fun x => if x = 1 then 1 else 0))) ∧
    (∀ d : List Int, BipolarAMI.encode d =
      BipolarAMI.encode (d.map (fun x => if x = 1 then 1 else 0))) ∧
    (∀ d : List Int, Manchester.encode d =
      Manchester.encode (d.map (fun x => if x = 1 then 1 else 0))) ∧
    (∀ d : List Int, Pseudoternary.encode d =
      Pseudoternary.encode (d.map (fun x => if x = 0 then 0 else 1))) ∧
    (∀ d : List Int, DifferentialManchester.encode d =
      DifferentialManchester.encode
        (d.map (fun x => if x = 0 then 0 else 1))) ∧
    BipolarAMI.encode [2] = BipolarAMI.encode [0] ∧
    Pseudoternary.encode [2] = Pseudoternary.encode [1] :=
  ⟨nrzl_default_branch, fun d => nrzi_default_branch_aux d LOW,
    fun d => ami_default_branch_aux d LOW, manchester_default_branch,
    fun d => pt_default_branch_aux d LOW,
    fun d => dm_default_branch_aux d LOW, by decide, by decide⟩
